import Mathlib

/-!
# Verification of the sub-step graph editor core

A shallow embedding, in Lean 4, of the graph-editing core of
`src/services/geminiService.ts`: the undo/redo history
(`updateEditableTaskWithHistory`, `handleLocalUndo`, `handleLocalRedo`),
node removal (`handleRemoveSubStep`), interactive edge creation
(`handleEndConnection` via `handleUpdateSubStep`), the auto-layout pass
(`handleAutoLayoutSubSteps`: Kahn layering, cycle fallback, column packing
with wrapping), drop clamping (`handleSubStepDrop`) and action-item
toggling (`handleToggleActionItem`).

Node ids are strings in the source; we model them as natural numbers
(ids are opaque tokens: only equality is used).  JavaScript numbers used
for in-degrees and coordinates are modelled as `Int` (in-degree counters
can be driven below zero by the source's decrement loop, and coordinates
are signed).  Optional fields (`nextSubStepIds?`, `actionItems?`,
`position?`) are modelled with `Option`, mirroring the `?.` accesses and
`|| []` defaults of the source.
-/

namespace GraphEditor

/-! ## Data model (`SubStep`, `ActionItem`, statuses) -/

inductive SubStepStatus where
  | notStarted
  | inProgress
  | completed
deriving DecidableEq, Repr

structure Pos where
  x : Int
  y : Int
deriving DecidableEq, Repr

structure ActionItem where
  id : Nat
  text : String := ""
  completed : Bool := false
deriving DecidableEq, Repr

structure SubStep where
  id : Nat
  text : String := ""
  status : SubStepStatus := .notStarted
  actionItems : Option (List ActionItem) := none
  attachments : Option (List String) := none
  position : Option Pos := none
  nextSubStepIds : Option (List Nat) := none
deriving DecidableEq, Repr

/-- The ids of the nodes, in their original (insertion) order. -/
def idsOf (nodes : List SubStep) : List Nat := nodes.map SubStep.id

/-! ## HistoryManager

`updateEditableTaskWithHistory` pushes the current task onto
`localHistory`, clears `localRedoHistory`, and replaces the task by
`updater currentTask` — all inside one `setEditableTask` functional
update.  `handleLocalUndo` / `handleLocalRedo` pop from one stack, push
the current task onto the other, and install the popped state.  The
history logic never inspects the task, so we embed it polymorphically in
the state type `α`. -/

structure HistState (α : Type) where
  editableTask : α
  localHistory : List α
  localRedoHistory : List α
deriving DecidableEq, Repr

/-- `updateEditableTaskWithHistory` (geminiService.ts lines 636–642). -/
def updateEditableTaskWithHistory {α : Type} (updater : α → α)
    (st : HistState α) : HistState α :=
  { editableTask := updater st.editableTask
    localHistory := st.localHistory ++ [st.editableTask]
    localRedoHistory := [] }

/-- `handleLocalUndo` (lines 652–658): no-op on an empty undo stack,
otherwise pop the most recent undo entry, push the current task onto the
redo stack, and install the popped entry. -/
def handleLocalUndo {α : Type} (st : HistState α) : HistState α :=
  match st.localHistory.getLast? with
  | none => st
  | some previousState =>
    { editableTask := previousState
      localHistory := st.localHistory.dropLast
      localRedoHistory := st.editableTask :: st.localRedoHistory }

/-- `handleLocalRedo` (lines 660–666): symmetric inverse of undo. -/
def handleLocalRedo {α : Type} (st : HistState α) : HistState α :=
  match st.localRedoHistory with
  | [] => st
  | nextState :: rest =>
    { editableTask := nextState
      localHistory := st.localHistory ++ [st.editableTask]
      localRedoHistory := rest }

/-! ## GraphStore operations

`handleUpdateSubStep` maps an update over the sub-step list, touching
only the node whose id matches.  `handleRemoveSubStep` filters the node
out and, in the same single state update, strips the removed id from
every remaining node's `nextSubStepIds`.  `handleEndConnection` releases
a connection gesture: a self-connection is cancelled, otherwise the
target id is added to the source's outgoing list through
`Array.from(new Set(...))` (first-occurrence-order deduplication). -/

/-- `handleUpdateSubStep` (lines 720–722); the partial-field merge is
modelled by a whole-record update function. -/
def handleUpdateSubStep (subStepId : Nat) (updates : SubStep → SubStep)
    (subSteps : List SubStep) : List SubStep :=
  subSteps.map fun ss => if ss.id = subStepId then updates ss else ss

/-- `handleRemoveSubStep` (lines 724–727): drop the node, then purge the
removed id from every remaining outgoing list (`?.filter` keeps a missing
list missing), all in one state update. -/
def handleRemoveSubStep (idToRemove : Nat) (subSteps : List SubStep) :
    List SubStep :=
  (subSteps.filter fun ss => ss.id ≠ idToRemove).map fun ss =>
    { ss with nextSubStepIds := ss.nextSubStepIds.map fun l =>
        l.filter (· ≠ idToRemove) }

/-- `Array.from(new Set(l))`: first occurrence of each element survives,
in order; `seen` accumulates the elements already emitted. -/
def setDedup (seen : List Nat) : List Nat → List Nat
  | [] => []
  | a :: l => if a ∈ seen then setDedup seen l else a :: setDedup (a :: seen) l

/-- `handleEndConnection` (lines 922–935): no active draft or a
self-connection leaves the graph untouched; otherwise the target id is
pushed through set-deduplication onto the source's outgoing list. -/
def handleEndConnection (connectingFrom : Option Nat) (targetId : Nat)
    (subSteps : List SubStep) : List SubStep :=
  match connectingFrom with
  | none => subSteps
  | some fromId =>
    if fromId = targetId then subSteps
    else
      handleUpdateSubStep fromId (fun ss =>
        { ss with
            nextSubStepIds := some (setDedup []
              (ss.nextSubStepIds.getD [] ++ [targetId])) })
        subSteps

/-- The graph's outgoing relation viewed with set semantics: each node's
id paired with the finset of its outgoing target ids. -/
def outSets (subSteps : List SubStep) : List (Nat × Finset Nat) :=
  subSteps.map fun ss => (ss.id, (ss.nextSubStepIds.getD []).toFinset)

/-- `item.id === itemId ? {...item, completed: !item.completed} : item`
mapped over a sub-step's action items (lines 975–977). -/
def toggleItems (itemId : Nat) (items : List ActionItem) : List ActionItem :=
  items.map fun item =>
    if item.id = itemId then { item with completed := !item.completed } else item

/-- `handleToggleActionItem` (lines 970–999): toggle the matching action
item and recompute the owning sub-step's status from the new item list. -/
def handleToggleActionItem (subStepId itemId : Nat)
    (subSteps : List SubStep) : List SubStep :=
  subSteps.map fun ss =>
    if ss.id ≠ subStepId then ss
    else
      let newActionItems : Option (List ActionItem) :=
        ss.actionItems.map (toggleItems itemId)
      let allCompleted : Option Bool :=
        newActionItems.map fun items => items.all (·.completed)
      let someInProgress : Option Bool :=
        newActionItems.map fun items => items.any (·.completed)
      let newStatus : SubStepStatus :=
        match newActionItems with
        | some items =>
          if items.length > 0 then
            if allCompleted = some true then .completed
            else if someInProgress = some true then .inProgress
            else .notStarted
          else .notStarted
        | none => .notStarted
      { ss with actionItems := newActionItems, status := newStatus }

/-- The status the claim prescribes, computed from an (optional) action
item list: with at least one item, Completed when every item is
completed, In Progress when at least one but not all are, Not Started
when none is; with no items, Not Started. -/
def claimedStatus (items : Option (List ActionItem)) : SubStepStatus :=
  match items with
  | none => .notStarted
  | some l =>
    if l = [] then .notStarted
    else if l.all (·.completed) then .completed
    else if l.any (·.completed) then .inProgress
    else .notStarted

/-! ## DragPositioner

`handleSubStepDragStart` (lines 828–836) captures the pointer-to-card
offset; `handleSubStepDrop` (lines 843–865) recomputes the card position
as the canvas-local pointer coordinate minus that offset, clamped per
axis to `[0, innerCanvasSize − cardSize]`, where the inner canvas size is
read from the DOM at the moment of drop (the inner canvas is looked up
by `querySelector` and may in principle be missing, in which case the
source skips the clamp). -/

/-- The drag-start offset `(clientX − cardRect.left, clientY − cardRect.top)`. -/
def handleSubStepDragStart (clientX clientY cardLeft cardTop : Int) :
    Int × Int :=
  (clientX - cardLeft, clientY - cardTop)

/-- The position computed on drop.  `innerSize`, when present, is the
`(scrollWidth, scrollHeight)` of the inner canvas measured at drop time. -/
def handleSubStepDrop (clientX clientY canvasLeft canvasTop : Int)
    (offX offY scrollLeft scrollTop : Int)
    (innerSize : Option (Int × Int)) (cardWidth cardHeight : Int) : Pos :=
  let newX := clientX - canvasLeft - offX + scrollLeft
  let newY := clientY - canvasTop - offY + scrollTop
  match innerSize with
  | none => { x := newX, y := newY }
  | some (scrollW, scrollH) =>
    { x := max 0 (min newX (scrollW - cardWidth))
      y := max 0 (min newY (scrollH - cardHeight)) }

/-! ## LayoutEngine: column packing with wrap

`handleAutoLayoutSubSteps` (lines 777–806) lays the computed levels out
left to right as columns with the constants below, keeping a running x
cursor and the current row's maximum column height, and wrapping to a
new row when a column (other than the very first, detected by
`currentX > 10`) would run past the canvas width.  Nodes of a level are
stacked vertically, node `k` at the column's y plus
`k * (cardHeight + vSpacing)`. -/

def cardWidth : Int := 192

def cardHeight : Int := 76

def hSpacing : Int := 60

def vSpacing : Int := 20

structure PackState where
  currentX : Int
  currentY : Int
  rowMaxHeight : Int
  placed : List (Nat × Pos)
deriving DecidableEq, Repr

/-- The inner `levelNodes.forEach` of the packing loop: node `k` of the
column is placed at `(x, y + k * (cardHeight + vSpacing))`. -/
def placeColumn (x y : Int) : Nat → List Nat → List (Nat × Pos)
  | _, [] => []
  | k, nodeId :: rest =>
    (nodeId, { x := x, y := y + (k : Int) * (cardHeight + vSpacing) })
      :: placeColumn x y (k + 1) rest

/-- One iteration of `levels.forEach` (lines 786–806): wrap when this is
not the very first column (`currentX > 10`) and the column would end past
the canvas width; place the column; advance the cursor and row height. -/
def packStep (canvasWidth : Int) (st : PackState) (levelNodes : List Nat) :
    PackState :=
  let columnWidth := cardWidth + hSpacing
  let columnHeight :=
    (levelNodes.length : Int) * (cardHeight + vSpacing) - vSpacing
  let st1 :=
    if st.currentX > 10 ∧ st.currentX + columnWidth > canvasWidth then
      { st with
          currentX := 10
          currentY := st.currentY + st.rowMaxHeight + vSpacing * 2
          rowMaxHeight := 0 }
    else st
  { currentX := st1.currentX + columnWidth
    currentY := st1.currentY
    rowMaxHeight := max st1.rowMaxHeight columnHeight
    placed := st1.placed ++ placeColumn st1.currentX st1.currentY 0 levelNodes }

def packInit : PackState :=
  { currentX := 10, currentY := 10, rowMaxHeight := 0, placed := [] }

def packLevels (canvasWidth : Int) (levels : List (List Nat)) : PackState :=
  levels.foldl (packStep canvasWidth) packInit

/-- The packing step as the spec words it: wrap "before placing any
column except the very first", tracked by an explicit first-column flag
instead of the code's `currentX > 10` test; everything else is the spec's
formulas (column height `size * (cardHeight + vSpacing) - vSpacing`, y
advance by `rowMaxHeight + 2 * vSpacing`, x reset to the margin). -/
def packStepSpec (canvasWidth : Int) (st : PackState × Bool)
    (levelNodes : List Nat) : PackState × Bool :=
  let s := st.1
  let isFirst := st.2
  let columnWidth := cardWidth + hSpacing
  let columnHeight :=
    (levelNodes.length : Int) * (cardHeight + vSpacing) - vSpacing
  let s1 :=
    if isFirst = false ∧ s.currentX + columnWidth > canvasWidth then
      { s with
          currentX := 10
          currentY := s.currentY + s.rowMaxHeight + vSpacing * 2
          rowMaxHeight := 0 }
    else s
  ({ currentX := s1.currentX + columnWidth
     currentY := s1.currentY
     rowMaxHeight := max s1.rowMaxHeight columnHeight
     placed := s1.placed ++ placeColumn s1.currentX s1.currentY 0 levelNodes },
   false)

def packLevelsSpec (canvasWidth : Int) (levels : List (List Nat)) :
    PackState × Bool :=
  levels.foldl (packStepSpec canvasWidth) (packInit, true)

/-- Closed axis-aligned card rectangles at the two positions do not
intersect. -/
def rectsDisjoint (p q : Pos) : Prop :=
  p.x + cardWidth < q.x ∨ q.x + cardWidth < p.x ∨
  p.y + cardHeight < q.y ∨ q.y + cardHeight < p.y

/-! ## LayoutEngine: Kahn layering (lines 734–775)

The source builds an adjacency map `adj` and an in-degree map `inDegree`
keyed by node id, counting only targets present among the nodes
(`adj.has(nextId)`).  The initial queue is the nodes with in-degree 0 in
original order; each `while` iteration pops the whole current queue as
one level, decrementing each popped node's targets and enqueueing a
target exactly when its counter reaches 0.  If the loop stalls before
every node was visited, the unvisited nodes are appended as one final
level, in original order.  The maps are modelled as total functions
`Nat → _` (JS map lookups happen only at node ids, where the two views
agree); counters are `Int` since the decrement loop is not clamped. -/

/-- `adj.has(v)`: v is among the node ids. -/
def present (nodes : List SubStep) (v : Nat) : Bool := (idsOf nodes).contains v

/-- One node's outgoing targets restricted to present nodes — the edges
the source pushes into `adj` and counts in `inDegree` (lines 743–750). -/
def targetsOf (nodes : List SubStep) (ss : SubStep) : List Nat :=
  (ss.nextSubStepIds.getD []).filter (present nodes)

/-- The adjacency list of the node with id `u` (empty off the node set). -/
def adjOf (nodes : List SubStep) (u : Nat) : List Nat :=
  match nodes.find? (fun ss => ss.id == u) with
  | some ss => targetsOf nodes ss
  | none => []

/-- `inDegree.set(k, inDegree.get(k)! + 1)`. -/
def bumpInDeg (m : Nat → Int) (k : Nat) : Nat → Int :=
  fun v => if v = k then m k + 1 else m v

/-- The in-degree map after the nested `forEach` of lines 743–750:
zero-initialised, then incremented once per present target occurrence. -/
def buildInDeg (nodes : List SubStep) : Nat → Int :=
  nodes.foldl
    (fun m ss =>
      (ss.nextSubStepIds.getD []).foldl
        (fun m' nextId =>
          if present nodes nextId then bumpInDeg m' nextId else m')
        m)
    (fun _ => 0)

/-- The initial queue (line 752): nodes with in-degree 0, original order. -/
def initQueue (nodes : List SubStep) : List Nat :=
  (nodes.filter fun ss => buildInDeg nodes ss.id == 0).map SubStep.id

/-- `inDegree.set(k, inDegree.get(k)! - 1)`. -/
def decrInDeg (m : Nat → Int) (k : Nat) : Nat → Int :=
  fun v => if v = k then m k - 1 else m v

/-- The body of lines 764–765: decrement target `v`; if its counter is
now exactly 0, push it onto the pending queue. -/
def relaxStep (st' : (Nat → Int) × List Nat) (v : Nat) :
    (Nat → Int) × List Nat :=
  let m' := decrInDeg st'.1 v
  (m', if m' v == 0 then st'.2 ++ [v] else st'.2)

/-- Processing one popped node `u` (lines 763–766): decrement each of its
targets, pushing a target the moment its counter reaches exactly 0. -/
def relaxNode (adj : Nat → List Nat) (st : (Nat → Int) × List Nat)
    (u : Nat) : (Nat → Int) × List Nat :=
  (adj u).foldl relaxStep st

/-- The `while` loop of lines 756–769.  Each iteration snapshots the
queue length, so exactly the current queue becomes the level and the
nodes pushed while processing it become the next queue.  The source loop
terminates because a node is enqueued at most once; here a fuel
parameter (instantiated with `nodes.length`, which the invariant proofs
show is never exhausted) makes the recursion structural. -/
def kahnLoop (adj : Nat → List Nat) :
    Nat → (Nat → Int) → List Nat → List (List Nat)
  | 0, _, _ => []
  | _ + 1, _, [] => []
  | fuel + 1, m, u :: rest =>
    let res := (u :: rest).foldl (relaxNode adj) (m, [])
    (u :: rest) :: kahnLoop adj fuel res.1 res.2

/-- The levels produced by the topological phase. -/
def kahnLevels (nodes : List SubStep) : List (List Nat) :=
  kahnLoop (adjOf nodes) nodes.length (buildInDeg nodes) (initQueue nodes)

/-- Lines 771–775: when the loop visited fewer nodes than exist (a
cycle), the unvisited nodes are appended as one final level, in original
node order. -/
def autoLayoutLevels (nodes : List SubStep) : List (List Nat) :=
  let levels := kahnLevels nodes
  if levels.flatten.length < nodes.length then
    let remainingNodes :=
      (nodes.filter fun ss => !(levels.flatten.contains ss.id)).map SubStep.id
    if remainingNodes.isEmpty then levels else levels ++ [remainingNodes]
  else levels

/-- The number of graph edges into `v` whose source is not in `peeled`
(counted with multiplicity, matching the in-degree counters). -/
def rInDeg (nodes : List SubStep) (peeled : List Nat) (v : Nat) : Nat :=
  ((nodes.filter fun ss => !(peeled.contains ss.id)).flatMap
    (targetsOf nodes)).count v

/-- The zero-in-degree frontier once `peeled` has been peeled: the nodes,
in original order, that are unpeeled and have no incoming edge from an
unpeeled source. -/
def frontier (nodes : List SubStep) (peeled : List Nat) : List Nat :=
  (idsOf nodes).filter fun v =>
    !(peeled.contains v) && rInDeg nodes peeled v == 0

/-- Everything peeled by the first `k` rounds of frontier peeling. -/
def specPeeled (nodes : List SubStep) : Nat → List Nat
  | 0 => []
  | k + 1 => specPeeled nodes k ++ frontier nodes (specPeeled nodes k)

/-- Layer `k` as the claim describes it: the zero-in-degree frontier
after peeling the previous layers. -/
def specLayer (nodes : List SubStep) (k : Nat) : List Nat :=
  frontier nodes (specPeeled nodes k)

/-- The produced levels, from peeled prefix `P` onward, are successive
frontiers: each level has exactly the members of the current frontier
(without duplicates, nonempty), and when the list ends the frontier is
empty. -/
def levelsMatch (nodes : List SubStep) : List Nat → List (List Nat) → Prop
  | P, [] => frontier nodes P = []
  | P, L :: rest =>
    (∀ v, v ∈ L ↔ v ∈ frontier nodes P) ∧ L.Nodup ∧ L ≠ [] ∧
    levelsMatch nodes (P ++ L) rest

/-- The spec's worked scenario: nodes 1–5, edges 1→2, 2→3, 1→4, 4→3,
node 5 isolated. -/
def demoNodes : List SubStep :=
  [{ id := 1, nextSubStepIds := some [2, 4] },
   { id := 2, nextSubStepIds := some [3] },
   { id := 3 },
   { id := 4, nextSubStepIds := some [3] },
   { id := 5 }]

/-- The cyclic scenario: 1→2, 2→1. -/
def cycNodes : List SubStep :=
  [{ id := 1, nextSubStepIds := some [2] },
   { id := 2, nextSubStepIds := some [1] }]

/-- Four nodes whose second layer comes out in discovery order `[4, 3]`,
not original order `[3, 4]`: 1→4 and 2→3 with 1 before 2 and 3 before 4. -/
def orderNodes : List SubStep :=
  [{ id := 1, nextSubStepIds := some [4] },
   { id := 2, nextSubStepIds := some [3] },
   { id := 3 },
   { id := 4 }]

/-- The claimed behaviour of `handleToggleActionItem` on one node: a
non-matching node is untouched; the matching node gets the toggled item
list, the status recomputed from it by `claimedStatus`, and every other
field unchanged. -/
def toggleSpec (subStepId itemId : Nat) (ss ss' : SubStep) : Prop :=
  (ss.id ≠ subStepId → ss' = ss) ∧
  (ss.id = subStepId →
    ss'.actionItems = ss.actionItems.map (toggleItems itemId) ∧
    ss'.status = claimedStatus (ss.actionItems.map (toggleItems itemId)) ∧
    ss'.id = ss.id ∧ ss'.text = ss.text ∧ ss'.position = ss.position ∧
    ss'.nextSubStepIds = ss.nextSubStepIds ∧
    ss'.attachments = ss.attachments)

/-! ## Helper lemmas about `setDedup` -/

theorem mem_setDedup {x : Nat} :
    ∀ (seen l : List Nat), x ∈ setDedup seen l ↔ x ∈ l ∧ x ∉ seen := by
  intro seen l
  induction l generalizing seen with
  | nil => simp [setDedup]
  | cons a l ih =>
    by_cases ha : a ∈ seen
    · rw [setDedup, if_pos ha, ih]
      constructor
      · rintro ⟨hx, hs⟩; exact ⟨List.mem_cons_of_mem _ hx, hs⟩
      · rintro ⟨hx, hs⟩
        rcases List.mem_cons.1 hx with rfl | hx'
        · exact absurd ha hs
        · exact ⟨hx', hs⟩
    · rw [setDedup, if_neg ha]
      constructor
      · intro hx
        rcases List.mem_cons.1 hx with rfl | hx'
        · exact ⟨List.mem_cons_self _ _, ha⟩
        · obtain ⟨h1, h2⟩ := (ih (a :: seen)).1 hx'
          exact ⟨List.mem_cons_of_mem _ h1,
            fun hs => h2 (List.mem_cons_of_mem _ hs)⟩
      · rintro ⟨hx, hs⟩
        rcases List.mem_cons.1 hx with rfl | hx'
        · exact List.mem_cons_self _ _
        · by_cases hxa : x = a
          · subst hxa; exact List.mem_cons_self _ _
          · refine List.mem_cons_of_mem _ ((ih (a :: seen)).2 ⟨hx', ?_⟩)
            intro hmem
            rcases List.mem_cons.1 hmem with h' | h'
            · exact hxa h'
            · exact hs h'

theorem nodup_setDedup : ∀ (seen l : List Nat), (setDedup seen l).Nodup := by
  intro seen l
  induction l generalizing seen with
  | nil => exact List.nodup_nil
  | cons a l ih =>
    by_cases ha : a ∈ seen
    · simpa [setDedup, if_pos ha] using ih seen
    · simp only [setDedup, if_neg ha, List.nodup_cons]
      refine ⟨fun h => ?_, ih (a :: seen)⟩
      exact ((mem_setDedup _ _).1 h).2 (List.mem_cons_self a seen)

theorem setDedup_append_mem_aux {b : Nat} :
    ∀ (seen d : List Nat), d.Nodup → (∀ x ∈ d, x ∉ seen) →
      (b ∈ d ∨ b ∈ seen) → setDedup seen (d ++ [b]) = d := by
  intro seen d
  induction d generalizing seen with
  | nil =>
    intro _ _ hb
    have hbs : b ∈ seen := by
      rcases hb with h | h
      · exact absurd h (List.not_mem_nil b)
      · exact h
    simp [setDedup, hbs]
  | cons a d ih =>
    intro hnd hdisj hb
    have ha : a ∉ seen := hdisj a (List.mem_cons_self a d)
    rw [List.cons_append, setDedup, if_neg ha]
    have hnd' := (List.nodup_cons.1 hnd).2
    have hal := (List.nodup_cons.1 hnd).1
    rw [ih (a :: seen) hnd' ?_ ?_]
    · intro x hx h
      rcases List.mem_cons.1 h with rfl | h'
      · exact hal hx
      · exact hdisj x (List.mem_cons_of_mem _ hx) h'
    · rcases hb with h | h
      · rcases List.mem_cons.1 h with rfl | h'
        · exact Or.inr (List.mem_cons_self _ _)
        · exact Or.inl h'
      · exact Or.inr (List.mem_cons_of_mem _ h)

/-- Re-adding an element already present to a duplicate-free list through
`Array.from(new Set(...))` is the identity. -/
theorem setDedup_append_mem {d : List Nat} {b : Nat}
    (hnd : d.Nodup) (hb : b ∈ d) : setDedup [] (d ++ [b]) = d :=
  setDedup_append_mem_aux [] d hnd (by simp) (Or.inl hb)

/-! ## Claim theorems: history (C3, C4) -/

/-- **C3.** For every editable task state and every mutation committed
from it (`updateEditableTaskWithHistory`): undo immediately after the
commit restores exactly the pre-mutation state as the current state, and
redo immediately after that undo restores exactly the pre-undo
(post-mutation) state — in fact the whole post-mutation history state. -/
theorem undo_redo_roundtrip {α : Type} (st : HistState α) (updater : α → α) :
    (handleLocalUndo (updateEditableTaskWithHistory updater st)).editableTask
        = st.editableTask ∧
    handleLocalRedo (handleLocalUndo (updateEditableTaskWithHistory updater st))
        = updateEditableTaskWithHistory updater st := by
  constructor
  · simp [updateEditableTaskWithHistory, handleLocalUndo]
  · simp [updateEditableTaskWithHistory, handleLocalUndo, handleLocalRedo]

/-- **C4.** Every commit pushes the pre-mutation state onto the undo
stack and clears the redo stack entirely; consequently a commit occurring
after an undo (indeed after any sequence of operations) leaves the redo
stack empty. -/
theorem commit_pushes_and_clears_redo {α : Type} (st : HistState α)
    (updater : α → α) :
    (updateEditableTaskWithHistory updater st).localHistory
        = st.localHistory ++ [st.editableTask] ∧
    (updateEditableTaskWithHistory updater st).localRedoHistory = [] ∧
    (updateEditableTaskWithHistory updater st).editableTask
        = updater st.editableTask ∧
    (updateEditableTaskWithHistory updater (handleLocalUndo st)).localRedoHistory
        = [] := by
  refine ⟨rfl, rfl, rfl, rfl⟩

/-! ## Claim theorems: node removal (C2) -/

/-- **C2.** After removing the node with a given id, no remaining node's
outgoing list contains the removed id (and the removed node itself is
gone); removal and purge are one state update (`handleRemoveSubStep` is a
single function producing the new sub-step list). -/
theorem removeNode_purges (subSteps : List SubStep) (idToRemove : Nat) :
    ∀ ss ∈ handleRemoveSubStep idToRemove subSteps,
      ss.id ≠ idToRemove ∧ idToRemove ∉ ss.nextSubStepIds.getD [] := by
  intro ss hss
  rw [handleRemoveSubStep] at hss
  obtain ⟨pre, hpre, rfl⟩ := List.mem_map.1 hss
  have hid : pre.id ≠ idToRemove := by
    have h := (List.mem_filter.1 hpre).2
    simpa using h
  refine ⟨hid, ?_⟩
  cases h : pre.nextSubStepIds with
  | none => simp [h]
  | some l => simp [h]

theorem removeNode_purges_witness :
    ({ id := 1, nextSubStepIds := some [] } : SubStep).id ≠ 2 ∧
    2 ∉ ({ id := 1, nextSubStepIds := some [] } : SubStep).nextSubStepIds.getD [] :=
  removeNode_purges [{ id := 1, nextSubStepIds := some [2] }, { id := 2 }] 2
    { id := 1, nextSubStepIds := some [] } (by decide)

/-! ## Helper lemmas about `handleEndConnection` -/

/-- If the edge already exists then releasing the connection leaves every
node's outgoing set (and id) unchanged. -/
theorem outSets_addEdge_exists (subSteps : List SubStep) (a b : Nat)
    (h : ∀ ss ∈ subSteps, ss.id = a → b ∈ ss.nextSubStepIds.getD []) :
    outSets (handleEndConnection (some a) b subSteps) = outSets subSteps := by
  by_cases hab : a = b
  · simp [handleEndConnection, hab]
  · simp only [handleEndConnection, if_neg hab]
    rw [handleUpdateSubStep, outSets, outSets, List.map_map]
    refine List.map_congr_left ?_
    intro ss hss
    by_cases hid : ss.id = a
    · simp only [Function.comp_apply, if_pos hid]
      refine Prod.ext rfl ?_
      have hb : b ∈ ss.nextSubStepIds.getD [] := h ss hss hid
      simp only
      refine Finset.ext ?_
      intro x
      simp only [List.mem_toFinset, mem_setDedup, Option.getD_some,
        List.mem_append, List.mem_singleton, List.not_mem_nil,
        not_false_iff, and_true]
      constructor
      · rintro (hx | rfl)
        · exact hx
        · exact hb
      · exact Or.inl
    · simp [Function.comp_apply, if_neg hid]

/-! ## Claim theorems: edge creation (C5, C8) -/

/-- **C5 (counterexample).** The claim says adding an edge is a no-op
whenever either endpoint id is absent from the node set.  Releasing a
connection onto target id 2, which is not a node of the one-node graph
`[{id := 1}]`, nevertheless mutates the graph: the code never checks the
target for presence, and id 2 is appended to node 1's outgoing list. -/
theorem addEdge_absent_target_mutates :
    2 ∉ idsOf [({ id := 1 } : SubStep)] ∧
    handleEndConnection (some 1) 2 [({ id := 1 } : SubStep)]
      = [({ id := 1, nextSubStepIds := some [2] } : SubStep)] ∧
    ({ id := 1, nextSubStepIds := some [2] } : SubStep)
      ≠ ({ id := 1 } : SubStep) := by decide

/-- **C5 (amended).** Releasing a connection gesture is a no-op on the
graph when there is no active draft, when `sourceId = targetId`, when the
source id is absent from the node set, or when the edge already exists
(outgoing sets unchanged); otherwise — source present and
`targetId ≠ sourceId` — the target id ends up in the source's outgoing
set, even when the target id is absent from the node set (the code does
not check target presence). -/
theorem addEdge_noop_cases (subSteps : List SubStep) (fromId targetId : Nat) :
    (handleEndConnection none targetId subSteps = subSteps) ∧
    (fromId = targetId →
      handleEndConnection (some fromId) targetId subSteps = subSteps) ∧
    (fromId ∉ idsOf subSteps →
      handleEndConnection (some fromId) targetId subSteps = subSteps) ∧
    ((∀ ss ∈ subSteps, ss.id = fromId → targetId ∈ ss.nextSubStepIds.getD []) →
      outSets (handleEndConnection (some fromId) targetId subSteps)
        = outSets subSteps) ∧
    (fromId ≠ targetId →
      ∀ ss ∈ handleEndConnection (some fromId) targetId subSteps,
        ss.id = fromId → targetId ∈ ss.nextSubStepIds.getD []) := by
  refine ⟨rfl, ?_, ?_, outSets_addEdge_exists subSteps fromId targetId, ?_⟩
  · intro h
    simp [handleEndConnection, h]
  · intro h
    by_cases hft : fromId = targetId
    · simp [handleEndConnection, hft]
    · simp only [handleEndConnection, if_neg hft, handleUpdateSubStep]
      have hpt : ∀ ss ∈ subSteps,
          (if ss.id = fromId then
            { ss with
                nextSubStepIds := some (setDedup []
                  (ss.nextSubStepIds.getD [] ++ [targetId])) }
          else ss) = id ss := by
        intro ss hss
        have : ss.id ≠ fromId := by
          intro hcontra
          exact h (hcontra ▸ List.mem_map_of_mem SubStep.id hss)
        simp [this]
      rw [List.map_congr_left hpt, List.map_id]
  · intro hft ss hss hid
    simp only [handleEndConnection, if_neg hft, handleUpdateSubStep] at hss
    obtain ⟨pre, hpre, rfl⟩ := List.mem_map.1 hss
    by_cases hpid : pre.id = fromId
    · simp only [if_pos hpid, Option.getD_some]
      rw [mem_setDedup]
      exact ⟨List.mem_append.2 (Or.inr (List.mem_singleton.2 rfl)),
        List.not_mem_nil _⟩
    · rw [if_neg hpid] at hid ⊢
      exact absurd hid hpid

theorem addEdge_noop_cases_witness :
    (1 : Nat) ∉ idsOf [({ id := 2 } : SubStep)] ∧
    handleEndConnection (some 1) 3 [({ id := 2 } : SubStep)]
      = [({ id := 2 } : SubStep)] :=
  ⟨by decide, (addEdge_noop_cases [({ id := 2 } : SubStep)] 1 3).2.2.1 (by decide)⟩

/-- **C8.** Releasing the same edge twice yields the same graph as
releasing it once (full idempotence of `handleEndConnection`), and on any
graph where the edge already exists, adding it again leaves every node's
outgoing set unchanged (set semantics of `nextSubStepIds`). -/
theorem addEdge_idempotent (subSteps : List SubStep) (a b : Nat) :
    handleEndConnection (some a) b (handleEndConnection (some a) b subSteps)
      = handleEndConnection (some a) b subSteps ∧
    ((∀ ss ∈ subSteps, ss.id = a → b ∈ ss.nextSubStepIds.getD []) →
      outSets (handleEndConnection (some a) b subSteps) = outSets subSteps) := by
  refine ⟨?_, outSets_addEdge_exists subSteps a b⟩
  by_cases hab : a = b
  · simp [handleEndConnection, hab]
  · simp only [handleEndConnection, if_neg hab, handleUpdateSubStep,
      List.map_map]
    refine List.map_congr_left ?_
    intro ss _
    by_cases hid : ss.id = a
    · simp only [Function.comp_apply, if_pos hid]
      have hd : b ∈ setDedup [] (ss.nextSubStepIds.getD [] ++ [b]) := by
        rw [mem_setDedup]
        exact ⟨List.mem_append.2 (Or.inr (List.mem_singleton.2 rfl)),
          List.not_mem_nil _⟩
      cases ss with
  | mk id text status actionItems attachments position nextSubStepIds =>
      simp only [if_pos hid, SubStep.mk.injEq, true_and, Option.getD_some]
      exact congrArg some (setDedup_append_mem (nodup_setDedup _ _) hd)
    · simp [Function.comp_apply, if_neg hid]

theorem addEdge_idempotent_witness :
    outSets (handleEndConnection (some 1) 2
        [({ id := 1, nextSubStepIds := some [2] } : SubStep)])
      = outSets [({ id := 1, nextSubStepIds := some [2] } : SubStep)] :=
  (addEdge_idempotent [({ id := 1, nextSubStepIds := some [2] } : SubStep)] 1 2).2
    (by decide)

/-! ## Claim theorems: action-item toggling (C10) -/

/-- **C10.** Toggling an action item recomputes the owning sub-step's
status from its (toggled) action items — Completed when every item is
completed, In Progress when at least one but not all are, Not Started
when none is or when there are no items — while every other sub-step and
every other field of the toggled sub-step is unchanged. -/
theorem toggle_recomputes_status (subSteps : List SubStep)
    (subStepId itemId : Nat) :
    List.Forall₂ (toggleSpec subStepId itemId) subSteps
      (handleToggleActionItem subStepId itemId subSteps) := by
  rw [handleToggleActionItem, List.forall₂_map_right_iff]
  refine List.forall₂_same.2 ?_
  intro ss _
  constructor
  · intro hid
    rw [if_pos hid]
  · intro hid
    rw [if_neg (not_not_intro hid)]
    cases han : ss.actionItems with
    | none => simp [claimedStatus]
    | some items =>
      refine ⟨rfl, ?_, rfl, rfl, rfl, rfl, rfl⟩
      show (if (toggleItems itemId items).length > 0 then _ else _) = _
      by_cases hnil : toggleItems itemId items = []
      · simp [claimedStatus, hnil]
      · have hlen : 0 < (toggleItems itemId items).length :=
          List.length_pos.2 hnil
        by_cases hall : (toggleItems itemId items).all (·.completed) = true
        · simp [claimedStatus, hnil, hlen, hall]
        · by_cases hany : (toggleItems itemId items).any (·.completed) = true
          · simp [claimedStatus, hnil, hlen, hall, hany]
          · simp [claimedStatus, hnil, hlen, hall, hany]

theorem toggle_recomputes_status_witness :
    List.Forall₂ (toggleSpec 1 10)
      [({ id := 1, actionItems := some [{ id := 10 }] } : SubStep)]
      (handleToggleActionItem 1 10
        [({ id := 1, actionItems := some [{ id := 10 }] } : SubStep)]) :=
  toggle_recomputes_status
    [({ id := 1, actionItems := some [{ id := 10 }] } : SubStep)] 1 10

/-! ## Claim theorems: drop clamping (C9) -/

/-- **C9.** On drop, the new position is the canvas-local pointer
coordinate minus the drag-start offset (captured by
`handleSubStepDragStart`), each axis then clamped to
`[0, containerSize − cardSize]` using the inner-canvas size passed in at
the moment of drop — the drop computation takes no size captured at drag
start — so whenever the card fits in the container the dropped card lies
entirely inside the scrollable content area. -/
theorem drop_clamped (clientX clientY canvasLeft canvasTop : Int)
    (startX startY cardLeft cardTop scrollLeft scrollTop : Int)
    (scrollW scrollH cardW cardH : Int)
    (hw : cardW ≤ scrollW) (hh : cardH ≤ scrollH) :
    (handleSubStepDrop clientX clientY canvasLeft canvasTop
        (handleSubStepDragStart startX startY cardLeft cardTop).1
        (handleSubStepDragStart startX startY cardLeft cardTop).2
        scrollLeft scrollTop (some (scrollW, scrollH)) cardW cardH).x
      = max 0 (min ((clientX - canvasLeft + scrollLeft) - (startX - cardLeft))
          (scrollW - cardW)) ∧
    (handleSubStepDrop clientX clientY canvasLeft canvasTop
        (handleSubStepDragStart startX startY cardLeft cardTop).1
        (handleSubStepDragStart startX startY cardLeft cardTop).2
        scrollLeft scrollTop (some (scrollW, scrollH)) cardW cardH).y
      = max 0 (min ((clientY - canvasTop + scrollTop) - (startY - cardTop))
          (scrollH - cardH)) ∧
    0 ≤ (handleSubStepDrop clientX clientY canvasLeft canvasTop
        (handleSubStepDragStart startX startY cardLeft cardTop).1
        (handleSubStepDragStart startX startY cardLeft cardTop).2
        scrollLeft scrollTop (some (scrollW, scrollH)) cardW cardH).x ∧
    (handleSubStepDrop clientX clientY canvasLeft canvasTop
        (handleSubStepDragStart startX startY cardLeft cardTop).1
        (handleSubStepDragStart startX startY cardLeft cardTop).2
        scrollLeft scrollTop (some (scrollW, scrollH)) cardW cardH).x + cardW
      ≤ scrollW ∧
    0 ≤ (handleSubStepDrop clientX clientY canvasLeft canvasTop
        (handleSubStepDragStart startX startY cardLeft cardTop).1
        (handleSubStepDragStart startX startY cardLeft cardTop).2
        scrollLeft scrollTop (some (scrollW, scrollH)) cardW cardH).y ∧
    (handleSubStepDrop clientX clientY canvasLeft canvasTop
        (handleSubStepDragStart startX startY cardLeft cardTop).1
        (handleSubStepDragStart startX startY cardLeft cardTop).2
        scrollLeft scrollTop (some (scrollW, scrollH)) cardW cardH).y + cardH
      ≤ scrollH := by
  simp only [handleSubStepDrop, handleSubStepDragStart]
  refine ⟨by ring_nf, by ring_nf, ?_, ?_, ?_, ?_⟩ <;> omega

theorem drop_clamped_witness :
    0 ≤ (handleSubStepDrop 500 400 20 30
        (handleSubStepDragStart 110 210 100 200).1
        (handleSubStepDragStart 110 210 100 200).2
        0 0 (some (600, 500)) 192 76).x ∧
    (handleSubStepDrop 500 400 20 30
        (handleSubStepDragStart 110 210 100 200).1
        (handleSubStepDragStart 110 210 100 200).2
        0 0 (some (600, 500)) 192 76).x + 192 ≤ 600 :=
  ⟨((drop_clamped 500 400 20 30 110 210 100 200 0 0 600 500 192 76
      (by decide) (by decide)).2.2.1),
   ((drop_clamped 500 400 20 30 110 210 100 200 0 0 600 500 192 76
      (by decide) (by decide)).2.2.2.1)⟩

/-! ## Helper lemmas about column packing -/

theorem placeColumn_getElem (x y : Int) :
    ∀ (level : List Nat) (k j : Nat),
      (placeColumn x y k level)[j]? =
        level[j]?.map fun nodeId =>
          (nodeId,
            ({ x := x, y := y + ((k + j : Nat) : Int) * (cardHeight + vSpacing) }
              : Pos)) := by
  intro level
  induction level with
  | nil => intro k j; simp [placeColumn]
  | cons a rest ih =>
    intro k j
    cases j with
    | zero => simp [placeColumn]
    | succ j' =>
      have h := ih (k + 1) j'
      have harith : k + 1 + j' = k + (j' + 1) := by omega
      rw [harith] at h
      simpa [placeColumn] using h

theorem placeColumn_mem_bounds (x y : Int) :
    ∀ (level : List Nat) (k : Nat) (p : Nat × Pos),
      p ∈ placeColumn x y k level →
        p.2.x = x ∧ y + (k : Int) * (cardHeight + vSpacing) ≤ p.2.y := by
  intro level
  induction level with
  | nil => intro k p hp; simp [placeColumn] at hp
  | cons a rest ih =>
    intro k p hp
    rcases List.mem_cons.1 hp with rfl | hp'
    · exact ⟨rfl, le_refl _⟩
    · obtain ⟨hx, hy⟩ := ih (k + 1) p hp'
      refine ⟨hx, le_trans ?_ hy⟩
      have : ((k : Int) + 1) * (cardHeight + vSpacing)
          = (k : Int) * (cardHeight + vSpacing) + (cardHeight + vSpacing) := by
        ring
      push_cast
      rw [this]
      simp [cardHeight, vSpacing]

theorem placeColumn_pairwise_disjoint (x y : Int) :
    ∀ (level : List Nat) (k : Nat),
      List.Pairwise (fun a b => rectsDisjoint a.2 b.2)
        (placeColumn x y k level) := by
  intro level
  induction level with
  | nil => intro k; exact List.Pairwise.nil
  | cons a rest ih =>
    intro k
    refine List.Pairwise.cons ?_ (ih (k + 1))
    intro q hq
    obtain ⟨_, hy⟩ := placeColumn_mem_bounds x y rest (k + 1) q hq
    refine Or.inr (Or.inr (Or.inl ?_))
    have : ((k : Int) + 1) * (cardHeight + vSpacing)
        = (k : Int) * (cardHeight + vSpacing) + (cardHeight + vSpacing) := by
      ring
    push_cast at hy
    rw [this] at hy
    simp only [cardHeight, vSpacing] at hy ⊢
    omega

theorem packStep_eq_spec (canvasWidth : Int) (s : PackState) (isFirst : Bool)
    (level : List Nat)
    (h1 : isFirst = true → s.currentX = 10)
    (h2 : isFirst = false → 10 < s.currentX) :
    packStep canvasWidth s level
      = (packStepSpec canvasWidth (s, isFirst) level).1 := by
  cases isFirst with
  | true =>
    have hx : s.currentX = 10 := h1 rfl
    simp [packStep, packStepSpec, hx]
  | false =>
    have hx : 10 < s.currentX := h2 rfl
    by_cases hc : s.currentX + (cardWidth + hSpacing) > canvasWidth
    · simp [packStep, packStepSpec, hx, hc]
    · simp [packStep, packStepSpec, hx, hc]

theorem packStepSpec_x_gt (canvasWidth : Int) (st : PackState × Bool)
    (level : List Nat) (h : 10 ≤ st.1.currentX) :
    10 < (packStepSpec canvasWidth st level).1.currentX := by
  rcases st with ⟨s, b⟩
  by_cases hc : (b = false ∧ s.currentX + (cardWidth + hSpacing) > canvasWidth)
  · simp only [packStepSpec, if_pos hc]
    simp [cardWidth, hSpacing]
  · simp only [packStepSpec, if_neg hc]
    simp only [cardWidth, hSpacing] at h ⊢
    omega

theorem packLevels_eq_spec_aux (canvasWidth : Int) :
    ∀ (levels : List (List Nat)) (s : PackState) (isFirst : Bool),
      (isFirst = true → s.currentX = 10) →
      (isFirst = false → 10 < s.currentX) →
      levels.foldl (packStep canvasWidth) s
        = (levels.foldl (packStepSpec canvasWidth) (s, isFirst)).1 := by
  intro levels
  induction levels with
  | nil => intro s isFirst _ _; rfl
  | cons level rest ih =>
    intro s isFirst h1 h2
    simp only [List.foldl_cons]
    rw [packStep_eq_spec canvasWidth s isFirst level h1 h2]
    have hge : 10 ≤ s.currentX := by
      cases isFirst with
      | true => exact le_of_eq (h1 rfl).symm
      | false => exact le_of_lt (h2 rfl)
    have hpair : packStepSpec canvasWidth (s, isFirst) level
        = ((packStepSpec canvasWidth (s, isFirst) level).1, false) := rfl
    rw [hpair]
    exact ih (packStepSpec canvasWidth (s, isFirst) level).1 false
      (fun hcontra => nomatch hcontra)
      (fun _ => packStepSpec_x_gt canvasWidth (s, isFirst) level hge)

/-! ## Claim theorems: column packing (C7) -/

/-- **C7.** Column packing refines the spec's description: the code's
fold (`packLevels`, wrap test `currentX > 10`) coincides with the fold
whose wrap test is an explicit "not the very first column" flag and whose
wrap resets x to the margin, advances y by `rowMaxHeight + 2 * vSpacing`,
resets the row max height, and computes the column height as
`size * (cardHeight + vSpacing) - vSpacing` (`packStepSpec`); node `j` of
a layer is placed at the column's x cursor and the column's y plus
`j * (cardHeight + vSpacing)`; consequently the card rectangles of any
one layer are pairwise disjoint. -/
theorem packing_columns (canvasWidth : Int) (levels : List (List Nat))
    (x y : Int) (level : List Nat) (j : Nat) :
    packLevels canvasWidth levels = (packLevelsSpec canvasWidth levels).1 ∧
    (placeColumn x y 0 level)[j]? =
      (level[j]?.map fun nodeId =>
        (nodeId,
          ({ x := x, y := y + (j : Int) * (cardHeight + vSpacing) } : Pos))) ∧
    List.Pairwise (fun a b => rectsDisjoint a.2 b.2)
      (placeColumn x y 0 level) := by
  refine ⟨?_, ?_, placeColumn_pairwise_disjoint x y level 0⟩
  · exact packLevels_eq_spec_aux canvasWidth levels packInit true
      (fun _ => rfl) (fun hcontra => nomatch hcontra)
  · simpa using placeColumn_getElem x y level 0 j

/-! ## Helper lemmas: in-degree bookkeeping and frontiers -/

theorem nodup_subset_covers {l m : List Nat} (hl : l.Nodup) (hm : m.Nodup)
    (h : ∀ x ∈ l, x ∈ m) (hlen : m.length ≤ l.length) : ∀ v ∈ m, v ∈ l := by
  have hsub : l.toFinset ⊆ m.toFinset := by
    intro x hx
    rw [List.mem_toFinset] at hx ⊢
    exact h x hx
  have hcard : m.toFinset.card ≤ l.toFinset.card := by
    rw [List.toFinset_card_of_nodup hl, List.toFinset_card_of_nodup hm]
    exact hlen
  have heq := Finset.eq_of_subset_of_card_le hsub hcard
  intro v hv
  rw [← List.mem_toFinset, ← heq, List.mem_toFinset] at hv
  exact hv

theorem contains_true_of_mem {l : List Nat} {a : Nat} (h : a ∈ l) :
    l.contains a = true :=
  List.elem_eq_true_of_mem h

theorem contains_false_of_not_mem {l : List Nat} {a : Nat} (h : a ∉ l) :
    l.contains a = false := by
  rw [Bool.eq_false_iff]
  intro hc
  exact h (List.elem_iff.1 hc)

theorem contains_congr {P Q : List Nat} (h : ∀ x, x ∈ P ↔ x ∈ Q) (v : Nat) :
    P.contains v = Q.contains v := by
  by_cases hv : v ∈ P
  · rw [contains_true_of_mem hv, contains_true_of_mem ((h v).1 hv)]
  · have hv' : v ∉ Q := fun hq => hv ((h v).2 hq)
    rw [contains_false_of_not_mem hv, contains_false_of_not_mem hv']

theorem ite_cond_true {α : Type} (x y : α) :
    (if (true = true) then x else y) = x := rfl

theorem ite_cond_false {α : Type} (x y : α) :
    (if (false = true) then x else y) = y := rfl

theorem natCast_beq_zero (n : Nat) : ((n : Int) == 0) = (n == 0) := by
  rcases n with _ | m
  · rfl
  · have h1 : (((m + 1 : Nat) : Int) == 0) = false := by
      rw [beq_eq_false_iff_ne]
      omega
    have h2 : ((m + 1 : Nat) == 0) = false := by
      rw [beq_eq_false_iff_ne]
      omega
    rw [h1, h2]

theorem buildInDeg_inner (nodes : List SubStep) :
    ∀ (l : List Nat) (m : Nat → Int) (v : Nat),
      (l.foldl
        (fun m' nextId =>
          if present nodes nextId then bumpInDeg m' nextId else m') m) v
        = m v + ((l.filter (present nodes)).count v : Int) := by
  intro l
  induction l with
  | nil => intro m v; simp
  | cons a l ih =>
    intro m v
    simp only [List.foldl_cons, List.filter_cons]
    by_cases ha : present nodes a
    · rw [if_pos ha, if_pos ha, ih (bumpInDeg m a) v]
      by_cases hva : v = a
      · subst hva
        rw [List.count_cons_self]
        simp only [bumpInDeg, if_pos rfl]
        push_cast
        ring
      · rw [List.count_cons_of_ne hva]
        simp only [bumpInDeg, if_neg hva]
    · rw [if_neg ha, if_neg ha, ih m v]

theorem buildInDeg_eq (nodes : List SubStep) (v : Nat) :
    buildInDeg nodes v = ((nodes.flatMap (targetsOf nodes)).count v : Int) := by
  suffices h : ∀ (l : List SubStep) (m : Nat → Int),
      (l.foldl
        (fun m ss =>
          (ss.nextSubStepIds.getD []).foldl
            (fun m' nextId =>
              if present nodes nextId then bumpInDeg m' nextId else m')
            m) m) v
        = m v + ((l.flatMap (targetsOf nodes)).count v : Int) by
    rw [buildInDeg, h nodes (fun _ => 0)]
    simp
  intro l
  induction l with
  | nil => intro m; simp
  | cons ss l ih =>
    intro m
    simp only [List.foldl_cons, List.flatMap_cons, List.count_append]
    rw [ih, buildInDeg_inner]
    show m v + ((targetsOf nodes ss).count v : Int) + _ = _
    push_cast
    ring

theorem rInDeg_nil (nodes : List SubStep) (v : Nat) :
    rInDeg nodes [] v = (nodes.flatMap (targetsOf nodes)).count v := by
  rw [rInDeg]
  have : (nodes.filter fun ss => !(([] : List Nat).contains ss.id)) = nodes :=
    List.filter_eq_self.2 fun _ _ => rfl
  rw [this]

theorem buildInDeg_eq_rInDeg_nil (nodes : List SubStep) (v : Nat) :
    buildInDeg nodes v = (rInDeg nodes [] v : Int) := by
  rw [buildInDeg_eq, rInDeg_nil]

theorem rInDeg_congr (nodes : List SubStep) {P Q : List Nat}
    (h : ∀ x, x ∈ P ↔ x ∈ Q) (v : Nat) :
    rInDeg nodes P v = rInDeg nodes Q v := by
  rw [rInDeg, rInDeg]
  congr 2
  apply List.filter_congr
  intro ss _
  rw [contains_congr h ss.id]

theorem count_flatMap_filter_mono (f : SubStep → List Nat) (v : Nat)
    (p q : SubStep → Bool) (himp : ∀ ss, q ss = true → p ss = true) :
    ∀ l : List SubStep,
      ((l.filter q).flatMap f).count v ≤ ((l.filter p).flatMap f).count v := by
  intro l
  induction l with
  | nil => simp
  | cons a l ih =>
    rw [List.filter_cons, List.filter_cons]
    by_cases hq : q a
    · rw [if_pos hq, if_pos (himp a hq)]
      simp only [List.flatMap_cons, List.count_append]
      omega
    · rw [if_neg hq]
      by_cases hp : p a
      · rw [if_pos hp]
        simp only [List.flatMap_cons, List.count_append]
        omega
      · rw [if_neg hp]
        exact ih

theorem rInDeg_append_le (nodes : List SubStep) (P E : List Nat) (v : Nat) :
    rInDeg nodes (P ++ E) v ≤ rInDeg nodes P v := by
  rw [rInDeg, rInDeg]
  apply count_flatMap_filter_mono
  intro ss h
  rw [Bool.not_eq_true', Bool.eq_false_iff] at h ⊢
  intro hc
  exact h (List.elem_iff.2 (List.mem_append.2 (Or.inl (List.elem_iff.1 hc))))

theorem count_peel_aux (f : SubStep → List Nat) (v u : Nat)
    (peeled : List Nat) (hu : u ∉ peeled) :
    ∀ l : List SubStep,
      ((l.filter fun ss => !(peeled.contains ss.id)).flatMap f).count v
        = ((l.filter fun ss => !((peeled ++ [u]).contains ss.id)).flatMap
            f).count v
          + ((l.filter fun ss => ss.id == u).flatMap f).count v := by
  intro l
  induction l with
  | nil => simp
  | cons a l ih =>
    simp only [List.filter_cons]
    by_cases hap : a.id ∈ peeled
    · have h1 : (!(peeled.contains a.id)) = false := by
        rw [contains_true_of_mem hap]
        rfl
      have h2 : (!((peeled ++ [u]).contains a.id)) = false := by
        rw [contains_true_of_mem (List.mem_append.2 (Or.inl hap))]
        rfl
      have h3 : (a.id == u) = false := by
        rw [beq_eq_false_iff_ne]
        intro hcontra
        exact hu (hcontra ▸ hap)
      rw [h1, h2, h3]
      simpa using ih
    · by_cases hau : a.id = u
      · have h1 : (!(peeled.contains a.id)) = true := by
          rw [contains_false_of_not_mem hap]
          rfl
        have h2 : (!((peeled ++ [u]).contains a.id)) = false := by
          rw [contains_true_of_mem (List.mem_append.2
            (Or.inr (List.mem_singleton.2 hau)))]
          rfl
        have h3 : (a.id == u) = true := beq_iff_eq.2 hau
        rw [h1, h2, h3, ite_cond_true, ite_cond_false, ite_cond_true]
        simp only [List.flatMap_cons, List.count_append]
        omega
      · have h1 : (!(peeled.contains a.id)) = true := by
          rw [contains_false_of_not_mem hap]
          rfl
        have h2 : (!((peeled ++ [u]).contains a.id)) = true := by
          have hnm : a.id ∉ peeled ++ [u] := by
            intro hc
            rcases List.mem_append.1 hc with hc' | hc'
            · exact hap hc'
            · exact hau (List.mem_singleton.1 hc')
          rw [contains_false_of_not_mem hnm]
          rfl
        have h3 : (a.id == u) = false := beq_eq_false_iff_ne.2 hau
        rw [h1, h2, h3, ite_cond_true, ite_cond_true, ite_cond_false]
        simp only [List.flatMap_cons, List.count_append]
        omega

theorem filter_id_flatMap (f : SubStep → List Nat) (u : Nat) :
    ∀ l : List SubStep, (l.map SubStep.id).Nodup →
      (l.filter fun ss => ss.id == u).flatMap f
        = (match l.find? (fun ss => ss.id == u) with
           | some ss => f ss
           | none => []) := by
  intro l
  induction l with
  | nil => intro _; rfl
  | cons a l ih =>
    intro hnd
    rw [List.map_cons, List.nodup_cons] at hnd
    rw [List.filter_cons]
    by_cases hau : a.id == u
    · rw [if_pos hau, @List.find?_cons_of_pos _ (fun ss => ss.id == u) a l hau]
      have hrest : l.filter (fun ss => ss.id == u) = [] := by
        rw [List.filter_eq_nil_iff]
        intro ss hss hcontra
        have h1 : ss.id = u := beq_iff_eq.1 hcontra
        have h2 : a.id = u := beq_iff_eq.1 hau
        have h3 : a.id ∈ List.map SubStep.id l := by
          rw [h2, ← h1]
          exact List.mem_map_of_mem SubStep.id hss
        exact hnd.1 h3
      rw [List.flatMap_cons, hrest]
      simp
    · rw [if_neg hau, @List.find?_cons_of_neg _ (fun ss => ss.id == u) a l hau]
      exact ih hnd.2

theorem rInDeg_peel (nodes : List SubStep) (hnd : (idsOf nodes).Nodup)
    {peeled : List Nat} {u : Nat} (hu : u ∉ peeled) (v : Nat) :
    rInDeg nodes peeled v
      = rInDeg nodes (peeled ++ [u]) v + (adjOf nodes u).count v := by
  rw [rInDeg, rInDeg, count_peel_aux (targetsOf nodes) v u peeled hu nodes]
  congr 1
  rw [filter_id_flatMap (targetsOf nodes) u nodes hnd]
  rfl

theorem mem_ids_of_rInDeg_pos (nodes : List SubStep) (P : List Nat) (v : Nat)
    (h : rInDeg nodes P v ≠ 0) : v ∈ idsOf nodes := by
  rw [rInDeg] at h
  have hmem := List.count_pos_iff.1 (Nat.pos_of_ne_zero h)
  obtain ⟨ss, _, hv⟩ := List.mem_flatMap.1 hmem
  have hp := (List.mem_filter.1 hv).2
  rw [present] at hp
  exact List.elem_iff.1 hp

theorem mem_frontier (nodes : List SubStep) (P : List Nat) (v : Nat) :
    v ∈ frontier nodes P
      ↔ v ∈ idsOf nodes ∧ v ∉ P ∧ rInDeg nodes P v = 0 := by
  rw [frontier, List.mem_filter]
  constructor
  · rintro ⟨h1, h2⟩
    rw [Bool.and_eq_true, Bool.not_eq_true', Bool.eq_false_iff] at h2
    exact ⟨h1, fun hc => h2.1 (List.elem_iff.2 hc), beq_iff_eq.1 h2.2⟩
  · rintro ⟨h1, h2, h3⟩
    refine ⟨h1, ?_⟩
    rw [Bool.and_eq_true, Bool.not_eq_true', Bool.eq_false_iff]
    exact ⟨fun hc => h2 (List.elem_iff.1 hc), beq_iff_eq.2 h3⟩

theorem frontier_congr (nodes : List SubStep) {P Q : List Nat}
    (h : ∀ x, x ∈ P ↔ x ∈ Q) : frontier nodes P = frontier nodes Q := by
  rw [frontier, frontier]
  apply List.filter_congr
  intro v _
  rw [contains_congr h v, rInDeg_congr nodes h v]

theorem frontier_nodup (nodes : List SubStep) (hnd : (idsOf nodes).Nodup)
    (P : List Nat) : (frontier nodes P).Nodup :=
  hnd.filter _

theorem initQueue_eq_frontier (nodes : List SubStep) :
    initQueue nodes = frontier nodes [] := by
  rw [initQueue, frontier, idsOf, List.filter_map]
  congr 1
  apply List.filter_congr
  intro ss _
  show (buildInDeg nodes ss.id == 0) = _
  rw [buildInDeg_eq_rInDeg_nil, natCast_beq_zero]
  rfl

/-! ## Helper lemmas: the relaxation fold -/

theorem nodup_append_singleton {l : List Nat} {a : Nat}
    (h1 : l.Nodup) (h2 : a ∉ l) : (l ++ [a]).Nodup := by
  rw [List.nodup_append]
  exact ⟨h1, List.nodup_singleton a, by simpa [List.disjoint_singleton] using h2⟩

theorem relaxStep_eq (m : Nat → Int) (p : List Nat) (a : Nat) :
    relaxStep (m, p) a
      = (decrInDeg m a, if decrInDeg m a a == 0 then p ++ [a] else p) := rfl

theorem relaxFold_fst :
    ∀ (as : List Nat) (m : Nat → Int) (p : List Nat) (v : Nat),
      ((as.foldl relaxStep (m, p)).1) v = m v - (as.count v : Int) := by
  intro as
  induction as with
  | nil => intro m p v; simp
  | cons a as ih =>
    intro m p v
    simp only [List.foldl_cons, relaxStep_eq]
    rw [ih]
    by_cases hva : v = a
    · subst hva
      rw [List.count_cons_self]
      simp only [decrInDeg, if_pos rfl]
      push_cast
      ring
    · rw [List.count_cons_of_ne hva]
      simp only [decrInDeg, if_neg hva]

theorem relaxFold_mem :
    ∀ (as : List Nat) (m : Nat → Int) (p : List Nat) (v : Nat),
      v ∈ (as.foldl relaxStep (m, p)).2
        ↔ v ∈ p ∨ (1 ≤ m v ∧ m v ≤ (as.count v : Int)) := by
  intro as
  induction as with
  | nil =>
    intro m p v
    constructor
    · intro h; exact Or.inl h
    · rintro (h | ⟨h1, h2⟩)
      · exact h
      · exact absurd (le_trans h1 h2) (by simp)
  | cons a as ih =>
    intro m p v
    simp only [List.foldl_cons, relaxStep_eq]
    rw [ih]
    by_cases hva : v = a
    · subst hva
      rw [List.count_cons_self]
      by_cases hm : decrInDeg m v v == 0
      · rw [if_pos hm]
        have hm1 : m v = 1 := by
          have h0 := beq_iff_eq.1 hm
          simp [decrInDeg] at h0
          omega
        have hc : (0 : Int) ≤ (as.count v : Int) := Int.natCast_nonneg _
        constructor
        · intro _
          refine Or.inr ⟨le_of_eq hm1.symm, ?_⟩
          rw [hm1]
          push_cast
          omega
        · intro _
          exact Or.inl (List.mem_append.2 (Or.inr (List.mem_singleton.2 rfl)))
      · rw [if_neg hm]
        have hm1 : m v ≠ 1 := by
          intro hcontra
          apply hm
          rw [beq_iff_eq]
          simp [decrInDeg]
          omega
        constructor
        · rintro (h | ⟨h1, h2⟩)
          · exact Or.inl h
          · simp [decrInDeg] at h1 h2
            refine Or.inr ⟨by omega, ?_⟩
            push_cast
            omega
        · rintro (h | ⟨h1, h2⟩)
          · exact Or.inl h
          · push_cast at h2
            have hd : decrInDeg m v v = m v - 1 := by simp [decrInDeg]
            refine Or.inr ⟨?_, ?_⟩ <;> rw [hd] <;> omega
    · rw [List.count_cons_of_ne hva]
      have hdm : decrInDeg m a v = m v := by
        simp [decrInDeg, hva]
      rw [hdm]
      have hmem : v ∈ (if decrInDeg m a a == 0 then p ++ [a] else p) ↔ v ∈ p := by
        by_cases hm : decrInDeg m a a == 0
        · rw [if_pos hm, List.mem_append, List.mem_singleton]
          constructor
          · rintro (h | rfl)
            · exact h
            · exact absurd rfl hva
          · exact Or.inl
        · rw [if_neg hm]
      rw [hmem]

theorem relaxFold_nodup :
    ∀ (as : List Nat) (m : Nat → Int) (p : List Nat),
      p.Nodup → (∀ v ∈ p, m v ≤ 0) →
      ((as.foldl relaxStep (m, p)).2.Nodup ∧
        ∀ v ∈ (as.foldl relaxStep (m, p)).2,
          (as.foldl relaxStep (m, p)).1 v ≤ 0) := by
  intro as
  induction as with
  | nil => intro m p h1 h2; exact ⟨h1, h2⟩
  | cons a as ih =>
    intro m p h1 h2
    simp only [List.foldl_cons, relaxStep_eq]
    apply ih
    · by_cases hm : decrInDeg m a a == 0
      · rw [if_pos hm]
        refine nodup_append_singleton h1 ?_
        intro ha
        have := h2 a ha
        have h0 := beq_iff_eq.1 hm
        simp [decrInDeg] at h0
        omega
      · rw [if_neg hm]
        exact h1
    · intro v hv
      by_cases hva : v = a
      · subst hva
        by_cases hm : decrInDeg m v v == 0
        · exact le_of_eq (beq_iff_eq.1 hm)
        · rw [if_neg hm] at hv
          have := h2 v hv
          simp [decrInDeg]
          omega
      · have hdm : decrInDeg m a v = m v := by simp [decrInDeg, hva]
        rw [hdm]
        by_cases hm : decrInDeg m a a == 0
        · rw [if_pos hm, List.mem_append, List.mem_singleton] at hv
          rcases hv with hv | rfl
          · exact h2 v hv
          · exact absurd rfl hva
        · rw [if_neg hm] at hv
          exact h2 v hv

/-! ## Helper lemmas: processing a whole level -/

theorem runQueue_spec (nodes : List SubStep) (hnd : (idsOf nodes).Nodup) :
    ∀ (R D : List Nat) (P : List Nat) (m : Nat → Int) (p : List Nat),
      (D ++ R).Nodup →
      (∀ u ∈ D ++ R, u ∈ idsOf nodes ∧ u ∉ P) →
      (∀ v, m v = (rInDeg nodes (P ++ D) v : Int)) →
      p.Nodup →
      (∀ v, v ∈ p ↔ v ∈ idsOf nodes ∧ rInDeg nodes (P ++ D) v = 0 ∧
        rInDeg nodes P v ≠ 0) →
      ((∀ v, (R.foldl (relaxNode (adjOf nodes)) (m, p)).1 v
          = (rInDeg nodes (P ++ (D ++ R)) v : Int)) ∧
       (R.foldl (relaxNode (adjOf nodes)) (m, p)).2.Nodup ∧
       (∀ v, v ∈ (R.foldl (relaxNode (adjOf nodes)) (m, p)).2
          ↔ v ∈ idsOf nodes ∧ rInDeg nodes (P ++ (D ++ R)) v = 0 ∧
            rInDeg nodes P v ≠ 0)) := by
  intro R
  induction R with
  | nil =>
    intro D P m p _ _ hm hpnd hp
    rw [List.foldl_nil]
    simp only [List.append_nil]
    exact ⟨hm, hpnd, hp⟩
  | cons u R ih =>
    intro D P m p hnd2 hmem hm hpnd hp
    have humem : u ∈ D ++ u :: R := List.mem_append.2
      (Or.inr (List.mem_cons_self u R))
    have huid : u ∈ idsOf nodes := (hmem u humem).1
    have huP : u ∉ P := (hmem u humem).2
    have huD : u ∉ D := by
      intro hc
      exact (List.disjoint_of_nodup_append hnd2) hc (List.mem_cons_self u R)
    have huPD : u ∉ P ++ D := by
      intro hc
      rcases List.mem_append.1 hc with hc' | hc'
      · exact huP hc'
      · exact huD hc'
    have hpeel : ∀ v, rInDeg nodes (P ++ D) v
        = rInDeg nodes ((P ++ D) ++ [u]) v + (adjOf nodes u).count v :=
      fun v => rInDeg_peel nodes hnd huPD v
    have hassoc : ∀ v, rInDeg nodes ((P ++ D) ++ [u]) v
        = rInDeg nodes (P ++ (D ++ [u])) v := by
      intro v
      rw [List.append_assoc]
    -- the state after relaxing u
    have hfst : ∀ v, (relaxNode (adjOf nodes) (m, p) u).1 v
        = (rInDeg nodes (P ++ (D ++ [u])) v : Int) := by
      intro v
      show ((adjOf nodes u).foldl relaxStep (m, p)).1 v = _
      rw [relaxFold_fst, hm v]
      have := hpeel v
      have := hassoc v
      omega
    have hzero_of_mem : ∀ v ∈ p, m v = 0 := by
      intro v hv
      rw [hm v, ((hp v).1 hv).2.1]
      rfl
    have hsnd_nodup : (relaxNode (adjOf nodes) (m, p) u).2.Nodup := by
      show ((adjOf nodes u).foldl relaxStep (m, p)).2.Nodup
      exact (relaxFold_nodup (adjOf nodes u) m p hpnd
        (fun v hv => le_of_eq (hzero_of_mem v hv))).1
    have hsnd_mem : ∀ v, v ∈ (relaxNode (adjOf nodes) (m, p) u).2
        ↔ v ∈ idsOf nodes ∧ rInDeg nodes (P ++ (D ++ [u])) v = 0 ∧
          rInDeg nodes P v ≠ 0 := by
      intro v
      show v ∈ ((adjOf nodes u).foldl relaxStep (m, p)).2 ↔ _
      rw [relaxFold_mem]
      constructor
      · rintro (hv | ⟨h1, h2⟩)
        · obtain ⟨hid, hz, hnz⟩ := (hp v).1 hv
          refine ⟨hid, ?_, hnz⟩
          have := hpeel v
          have := hassoc v
          omega
        · rw [hm v] at h1 h2
          have hzD : rInDeg nodes (P ++ D) v ≠ 0 := by
            intro hc
            rw [hc] at h1
            exact absurd h1 (by norm_num)
          have hidv : v ∈ idsOf nodes := mem_ids_of_rInDeg_pos nodes _ v hzD
          have hPnz : rInDeg nodes P v ≠ 0 := by
            have hle := rInDeg_append_le nodes P D v
            intro hc
            rw [hc] at hle
            exact hzD (Nat.le_zero.1 hle)
          refine ⟨hidv, ?_, hPnz⟩
          have := hpeel v
          have := hassoc v
          have hcast : (rInDeg nodes (P ++ D) v : Int)
              ≤ ((adjOf nodes u).count v : Int) := h2
          have h3 : rInDeg nodes (P ++ D) v ≤ (adjOf nodes u).count v := by
            exact_mod_cast hcast
          omega
      · rintro ⟨hid, hz, hnz⟩
        by_cases hzD : rInDeg nodes (P ++ D) v = 0
        · exact Or.inl ((hp v).2 ⟨hid, hzD, hnz⟩)
        · refine Or.inr ⟨?_, ?_⟩
          · rw [hm v]
            have : 0 < rInDeg nodes (P ++ D) v := Nat.pos_of_ne_zero hzD
            exact_mod_cast this
          · rw [hm v]
            have := hpeel v
            have := hassoc v
            have : rInDeg nodes (P ++ D) v ≤ (adjOf nodes u).count v := by omega
            exact_mod_cast this
    -- apply the induction hypothesis with the extended done-prefix
    have hnd3 : ((D ++ [u]) ++ R).Nodup := by
      have : (D ++ [u]) ++ R = D ++ u :: R := by
        rw [List.append_assoc, List.singleton_append]
      rw [this]
      exact hnd2
    have hmem3 : ∀ w ∈ (D ++ [u]) ++ R, w ∈ idsOf nodes ∧ w ∉ P := by
      intro w hw
      apply hmem
      have : (D ++ [u]) ++ R = D ++ u :: R := by
        rw [List.append_assoc, List.singleton_append]
      rw [← this]
      exact hw
    have ihres := ih (D ++ [u]) P (relaxNode (adjOf nodes) (m, p) u).1
      (relaxNode (adjOf nodes) (m, p) u).2 hnd3 hmem3 hfst hsnd_nodup hsnd_mem
    have hfold : (u :: R).foldl (relaxNode (adjOf nodes)) (m, p)
        = R.foldl (relaxNode (adjOf nodes))
            ((relaxNode (adjOf nodes) (m, p) u).1,
              (relaxNode (adjOf nodes) (m, p) u).2) := by
      rw [List.foldl_cons]
    have hlist : (D ++ [u]) ++ R = D ++ u :: R := by
      rw [List.append_assoc, List.singleton_append]
    rw [hfold]
    rw [hlist] at ihres
    exact ihres

/-! ## Helper lemmas: the whole loop produces successive frontiers -/

theorem kahnLoop_levelsMatch (nodes : List SubStep)
    (hnd : (idsOf nodes).Nodup) :
    ∀ (fuel : Nat) (P queue : List Nat) (m : Nat → Int),
      P.Nodup → (∀ x ∈ P, x ∈ idsOf nodes) →
      (∀ x ∈ P, rInDeg nodes P x = 0) →
      (∀ v, m v = (rInDeg nodes P v : Int)) →
      queue.Nodup →
      (∀ v, v ∈ queue ↔ v ∈ frontier nodes P) →
      (idsOf nodes).length ≤ fuel + P.length →
      levelsMatch nodes P (kahnLoop (adjOf nodes) fuel m queue) := by
  intro fuel
  induction fuel with
  | zero =>
    intro P queue m hPnd hPid hPz _ _ _ hfuel
    show frontier nodes P = []
    rw [List.eq_nil_iff_forall_not_mem]
    intro v hv
    obtain ⟨hvid, hvP, _⟩ := (mem_frontier nodes P v).1 hv
    have hcov := nodup_subset_covers hPnd hnd hPid (by omega)
    exact hvP (hcov v hvid)
  | succ fuel ih =>
    intro P queue m hPnd hPid hPz hm hqnd hq hfuel
    cases queue with
    | nil =>
      show frontier nodes P = []
      rw [List.eq_nil_iff_forall_not_mem]
      intro v hv
      exact absurd ((hq v).2 hv) (List.not_mem_nil v)
    | cons u rest =>
      have hqmem : ∀ w ∈ ([] : List Nat) ++ u :: rest,
          w ∈ idsOf nodes ∧ w ∉ P := by
        intro w hw
        rw [List.nil_append] at hw
        obtain ⟨h1, h2, _⟩ := (mem_frontier nodes P w).1 ((hq w).1 hw)
        exact ⟨h1, h2⟩
      have hm' : ∀ v, m v = (rInDeg nodes (P ++ []) v : Int) := by
        intro v
        rw [List.append_nil]
        exact hm v
      have hp0 : ∀ v, v ∈ ([] : List Nat)
          ↔ v ∈ idsOf nodes ∧ rInDeg nodes (P ++ []) v = 0 ∧
            rInDeg nodes P v ≠ 0 := by
        intro v
        rw [List.append_nil]
        constructor
        · intro h
          exact absurd h (List.not_mem_nil v)
        · rintro ⟨_, h1, h2⟩
          exact absurd h1 h2
      have hres := runQueue_spec nodes hnd (u :: rest) [] P m []
        (by rw [List.nil_append]; exact hqnd) hqmem hm' List.nodup_nil hp0
      rw [List.nil_append] at hres
      obtain ⟨hres1, hres2, hres3⟩ := hres
      have hQsub : ∀ x ∈ u :: rest, x ∈ frontier nodes P :=
        fun x hx => (hq x).1 hx
      have hdisj : List.Disjoint P (u :: rest) := by
        intro x hxP hxQ
        exact ((mem_frontier nodes P x).1 (hQsub x hxQ)).2.1 hxP
      have hPnd' : (P ++ u :: rest).Nodup := by
        rw [List.nodup_append]
        exact ⟨hPnd, hqnd, hdisj⟩
      have hPid' : ∀ x ∈ P ++ u :: rest, x ∈ idsOf nodes := by
        intro x hx
        rcases List.mem_append.1 hx with hx' | hx'
        · exact hPid x hx'
        · exact ((mem_frontier nodes P x).1 (hQsub x hx')).1
      have hPz' : ∀ x ∈ P ++ u :: rest, rInDeg nodes (P ++ u :: rest) x = 0 := by
        intro x hx
        have hle := rInDeg_append_le nodes P (u :: rest) x
        rcases List.mem_append.1 hx with hx' | hx'
        · have := hPz x hx'
          omega
        · have := ((mem_frontier nodes P x).1 (hQsub x hx')).2.2
          omega
      have hq' : ∀ v,
          v ∈ ((u :: rest).foldl (relaxNode (adjOf nodes)) (m, [])).2
            ↔ v ∈ frontier nodes (P ++ u :: rest) := by
        intro v
        rw [hres3 v, mem_frontier]
        constructor
        · rintro ⟨h1, h2, h3⟩
          refine ⟨h1, ?_, h2⟩
          intro hc
          rcases List.mem_append.1 hc with hc' | hc'
          · exact h3 (hPz v hc')
          · exact h3 ((mem_frontier nodes P v).1 (hQsub v hc')).2.2
        · rintro ⟨h1, h2, h3⟩
          refine ⟨h1, h3, ?_⟩
          intro hc
          apply h2
          apply List.mem_append.2
          right
          apply (hq v).2
          rw [mem_frontier]
          refine ⟨h1, ?_, hc⟩
          intro hcP
          exact h2 (List.mem_append.2 (Or.inl hcP))
      have hfuel' : (idsOf nodes).length ≤ fuel + (P ++ u :: rest).length := by
        rw [List.length_append, List.length_cons]
        omega
      refine ⟨hq, hqnd, List.cons_ne_nil u rest, ?_⟩
      exact ih (P ++ u :: rest)
        ((u :: rest).foldl (relaxNode (adjOf nodes)) (m, [])).2
        ((u :: rest).foldl (relaxNode (adjOf nodes)) (m, [])).1
        hPnd' hPid' hPz' hres1 hres2 hq' hfuel'

theorem kahnLevels_levelsMatch (nodes : List SubStep)
    (hnd : (idsOf nodes).Nodup) :
    levelsMatch nodes [] (kahnLevels nodes) := by
  rw [kahnLevels]
  refine kahnLoop_levelsMatch nodes hnd nodes.length [] (initQueue nodes)
    (buildInDeg nodes) List.nodup_nil ?_ ?_ ?_ ?_ ?_ ?_
  · intro x hx
    exact absurd hx (List.not_mem_nil x)
  · intro x hx
    exact absurd hx (List.not_mem_nil x)
  · intro v
    exact buildInDeg_eq_rInDeg_nil nodes v
  · rw [initQueue_eq_frontier]
    exact frontier_nodup nodes hnd []
  · intro v
    rw [initQueue_eq_frontier]
  · rw [idsOf, List.length_map]
    omega

theorem levelsMatch_flatten (nodes : List SubStep) :
    ∀ (L : List (List Nat)) (P : List Nat), levelsMatch nodes P L →
      ((∀ x ∈ L.flatten, x ∈ idsOf nodes ∧ x ∉ P) ∧ L.flatten.Nodup ∧
        frontier nodes (P ++ L.flatten) = []) := by
  intro L
  induction L with
  | nil =>
    intro P h
    refine ⟨fun x hx => absurd hx (List.not_mem_nil x), List.nodup_nil, ?_⟩
    rw [List.flatten_nil, List.append_nil]
    exact h
  | cons L0 rest ih =>
    intro P h
    obtain ⟨hmem, hnd0, _, htail⟩ := h
    obtain ⟨ih1, ih2, ih3⟩ := ih (P ++ L0) htail
    rw [List.flatten_cons]
    refine ⟨?_, ?_, ?_⟩
    · intro x hx
      rcases List.mem_append.1 hx with hx' | hx'
      · obtain ⟨h1, h2, _⟩ := (mem_frontier nodes P x).1 ((hmem x).1 hx')
        exact ⟨h1, h2⟩
      · obtain ⟨h1, h2⟩ := ih1 x hx'
        exact ⟨h1, fun hc => h2 (List.mem_append.2 (Or.inl hc))⟩
    · rw [List.nodup_append]
      refine ⟨hnd0, ih2, ?_⟩
      intro x hx1 hx2
      exact (ih1 x hx2).2 (List.mem_append.2 (Or.inr hx1))
    · rw [← List.append_assoc]
      exact ih3

theorem specLayer_stable (nodes : List SubStep) (k : Nat)
    (h : specLayer nodes k = []) : ∀ j, specLayer nodes (k + j) = [] := by
  intro j
  induction j with
  | zero => exact h
  | succ j ihj =>
    have hpe : specPeeled nodes (k + j + 1) = specPeeled nodes (k + j) := by
      show specPeeled nodes (k + j) ++ frontier nodes (specPeeled nodes (k + j))
          = _
      have hfr : frontier nodes (specPeeled nodes (k + j)) = [] := ihj
      rw [hfr, List.append_nil]
    show frontier nodes (specPeeled nodes (k + j + 1)) = []
    rw [hpe]
    exact ihj

theorem levelsMatch_spec_layers (nodes : List SubStep) :
    ∀ (L : List (List Nat)) (P : List Nat) (k : Nat),
      levelsMatch nodes P L →
      (∀ x, x ∈ P ↔ x ∈ specPeeled nodes k) →
      ∀ (j : Nat) (v : Nat),
        v ∈ (L[j]?.getD []) ↔ v ∈ specLayer nodes (k + j) := by
  intro L
  induction L with
  | nil =>
    intro P k h hPk j v
    have h0 : frontier nodes P = [] := h
    have hs : specLayer nodes k = [] := by
      show frontier nodes (specPeeled nodes k) = []
      rw [← frontier_congr nodes hPk]
      exact h0
    rw [specLayer_stable nodes k hs j]
    simp
  | cons L0 rest ih =>
    intro P k h hPk j v
    obtain ⟨hmem, _, _, htail⟩ := h
    have hfr : frontier nodes P = frontier nodes (specPeeled nodes k) :=
      frontier_congr nodes hPk
    cases j with
    | zero =>
      rw [List.getElem?_cons_zero, Option.getD_some, Nat.add_zero]
      rw [hmem v, hfr]
      exact Iff.rfl
    | succ j' =>
      have hPk' : ∀ x, x ∈ P ++ L0 ↔ x ∈ specPeeled nodes (k + 1) := by
        intro x
        show _ ↔ x ∈ specPeeled nodes k ++ frontier nodes (specPeeled nodes k)
        rw [List.mem_append, List.mem_append, ← hfr]
        constructor
        · rintro (hx | hx)
          · exact Or.inl ((hPk x).1 hx)
          · exact Or.inr ((hmem x).1 hx)
        · rintro (hx | hx)
          · exact Or.inl ((hPk x).2 hx)
          · exact Or.inr ((hmem x).2 hx)
      have hres := ih (P ++ L0) (k + 1) htail hPk' j' v
      rw [List.getElem?_cons_succ]
      have harith : k + 1 + j' = k + (j' + 1) := by omega
      rw [harith] at hres
      exact hres

theorem kahnLevels_spec (nodes : List SubStep) (hnd : (idsOf nodes).Nodup) :
    ∀ (j : Nat) (v : Nat),
      v ∈ ((kahnLevels nodes)[j]?.getD []) ↔ v ∈ specLayer nodes j := by
  intro j v
  have h := levelsMatch_spec_layers nodes (kahnLevels nodes) [] 0
    (kahnLevels_levelsMatch nodes hnd)
    (fun x => by
      constructor
      · intro hx
        exact absurd hx (List.not_mem_nil x)
      · intro hx
        exact absurd hx (List.not_mem_nil x))
    j v
  rwa [Nat.zero_add] at h

theorem kahnLevels_head (nodes : List SubStep) :
    (kahnLevels nodes)[0]?.getD [] = specLayer nodes 0 := by
  have hs : specLayer nodes 0 = frontier nodes [] := rfl
  rw [hs, ← initQueue_eq_frontier, kahnLevels]
  rcases nodes with _ | ⟨n, ns⟩
  · rfl
  · cases hq2 : initQueue (n :: ns) with
    | nil => rfl
    | cons u rest =>
      show (kahnLoop (adjOf (n :: ns)) (ns.length + 1) (buildInDeg (n :: ns))
          (u :: rest))[0]?.getD [] = u :: rest
      rw [kahnLoop, List.getElem?_cons_zero, Option.getD_some]

/-! ## Claim theorems: layering (C1) and cycle fallback (C6) -/

/-- **C1 (counterexample).** The claim says the order of nodes within
every layer preserves the original node order.  On the graph with nodes
`[1, 2, 3, 4]` and edges 1→4, 2→3 the second layer comes out `[4, 3]` —
the order in which in-degrees reached zero — whereas the original node
order would give `[3, 4]`. -/
theorem kahn_layer_order_countereg :
    kahnLevels orderNodes = [[1, 2], [4, 3]] ∧
    ¬ (∀ layer ∈ kahnLevels orderNodes,
        layer = (idsOf orderNodes).filter fun v => layer.contains v) := by
  decide

/-- **C1 (amended).** Auto layout layers the graph by Kahn's algorithm
restricted to edges whose endpoints are both present: layer 0 is exactly
the nodes with zero in-degree, in original node order; each subsequent
layer consists of exactly the nodes of the zero-in-degree frontier after
peeling the previous layer, in the order their in-degree reached zero
(not necessarily the original node order); for the scenario graph
(nodes {1,…,5}, edges 1→2, 2→3, 1→4, 4→3, node 5 isolated, width
sufficient for 3 columns) the layers are [[1,5],[2,4],[3]], placed as
columns left to right at increasing x. -/
theorem kahn_layers (nodes : List SubStep) (hnd : (idsOf nodes).Nodup) :
    (kahnLevels nodes)[0]?.getD [] = specLayer nodes 0 ∧
    (∀ (j : Nat) (v : Nat),
      v ∈ ((kahnLevels nodes)[j]?.getD []) ↔ v ∈ specLayer nodes j) ∧
    autoLayoutLevels demoNodes = [[1, 5], [2, 4], [3]] ∧
    (packLevels 800 (autoLayoutLevels demoNodes)).placed =
      [(1, { x := 10, y := 10 }), (5, { x := 10, y := 106 }),
       (2, { x := 262, y := 10 }), (4, { x := 262, y := 106 }),
       (3, { x := 514, y := 10 })] :=
  ⟨kahnLevels_head nodes, kahnLevels_spec nodes hnd, by decide, by decide⟩

theorem kahn_layers_witness :
    (kahnLevels demoNodes)[0]?.getD [] = specLayer demoNodes 0 :=
  (kahn_layers demoNodes (by decide)).1

/-- **C6.** If peeling stalls before all nodes are consumed, the
unpeeled nodes are appended as exactly one final trailing layer, in
original node order, that layer is nonempty, every node ends up in some
layer, and on the cyclic graph 1→2, 2→1 both nodes land in the single
trailing layer (the layout function is total — no error path exists). -/
theorem cycle_fallback (nodes : List SubStep) (hnd : (idsOf nodes).Nodup)
    (hstall : (kahnLevels nodes).flatten.length < nodes.length) :
    autoLayoutLevels nodes
      = kahnLevels nodes ++
        [(nodes.filter fun ss =>
            !((kahnLevels nodes).flatten.contains ss.id)).map SubStep.id] ∧
    ((nodes.filter fun ss =>
        !((kahnLevels nodes).flatten.contains ss.id)).map SubStep.id ≠ []) ∧
    (∀ ss ∈ nodes, ss.id ∈ (autoLayoutLevels nodes).flatten) ∧
    autoLayoutLevels cycNodes = [[1, 2]] := by
  obtain ⟨hfl1, hfl2, _⟩ :=
    levelsMatch_flatten nodes (kahnLevels nodes) []
      (kahnLevels_levelsMatch nodes hnd)
  have hrem : (nodes.filter fun ss =>
      !((kahnLevels nodes).flatten.contains ss.id)).map SubStep.id ≠ [] := by
    intro hc
    rw [List.map_eq_nil_iff, List.filter_eq_nil_iff] at hc
    have hsub : ∀ x ∈ idsOf nodes, x ∈ (kahnLevels nodes).flatten := by
      intro x hx
      obtain ⟨ss, hss, rfl⟩ := List.mem_map.1 hx
      have := hc ss hss
      rw [Bool.not_eq_true', Bool.not_eq_false] at this
      exact List.elem_iff.1 this
    have hlen : (idsOf nodes).length ≤ (kahnLevels nodes).flatten.length := by
      have h1 : (idsOf nodes).toFinset ⊆ (kahnLevels nodes).flatten.toFinset := by
        intro x hx
        rw [List.mem_toFinset] at hx ⊢
        exact hsub x hx
      have h2 := Finset.card_le_card h1
      rw [List.toFinset_card_of_nodup hnd] at h2
      exact le_trans h2 (List.toFinset_card_le _)
    rw [idsOf, List.length_map] at hlen
    omega
  have hiso : (((nodes.filter fun ss =>
      !((kahnLevels nodes).flatten.contains ss.id)).map SubStep.id).isEmpty)
        = false := by
    rw [Bool.eq_false_iff]
    intro hc
    exact hrem (List.isEmpty_iff.1 hc)
  have hmain : autoLayoutLevels nodes
      = kahnLevels nodes ++
        [(nodes.filter fun ss =>
            !((kahnLevels nodes).flatten.contains ss.id)).map SubStep.id] := by
    rw [autoLayoutLevels]
    simp only
    rw [if_pos hstall, hiso]
    rfl
  refine ⟨hmain, hrem, ?_, by decide⟩
  intro ss hss
  rw [hmain, List.flatten_append, List.flatten_cons, List.flatten_nil,
    List.append_nil]
  by_cases hin : ss.id ∈ (kahnLevels nodes).flatten
  · exact List.mem_append.2 (Or.inl hin)
  · refine List.mem_append.2 (Or.inr ?_)
    refine List.mem_map_of_mem SubStep.id ?_
    rw [List.mem_filter]
    refine ⟨hss, ?_⟩
    rw [Bool.not_eq_eq_eq_not, Bool.not_true]
    exact contains_false_of_not_mem hin

theorem cycle_fallback_witness : autoLayoutLevels cycNodes = [[1, 2]] :=
  (cycle_fallback cycNodes (by decide) (by decide)).2.2.2

end GraphEditor
